import Mathlib

/-!
Verification of `QasmParserLib` (files `src/parser.cpp`, `includes/parser.h`).

The development is a shallow embedding of the library's core pipeline:

* `errorCheck`, `readLines`  — loading and validating the input records;
* `parseStrInt`              — basis-string decomposition into X/Y/Z index lists;
* `parseOpToQasm`            — per-term OpenQASM code generation;
* `parseCircuitSeq`, `parseCircuit` — the two entry points assembling the
  final program text from a version-specific header and the per-term blocks,
  aggregated through a `std::map` keyed by the operator's input line.

Machine integers are embedded as `Nat`/`Int` with the LP64 widths of the
reference build (`unsigned long` is 64-bit, `long long` is 64-bit signed);
the one place where unsigned wrap-around matters (`lastUsed - 1`) is made
explicit through `ulSub1`.  The `float` coefficient travels as its parsed
rational value (used by the zero test of `errorCheck`) together with its
formatted text (used verbatim by the `fmt::format` calls); no claim depends
on the float parse/format round trip itself, so the two are carried as
separate fields of an input record.  File I/O (reading the input file,
the optional output file) is outside the embedded core: the functions take
the in-memory sequence of tokenized lines and return the text that the C++
functions return.  `Parser::printError` terminates the process; the
embedding propagates the printed message together with the line number as
an `Except` error.
-/

namespace QasmParser

/-- Maximum of `unsigned long` on the LP64 reference platform. -/
def ulongMax : Nat := 2 ^ 64 - 1

/-- Maximum value `std::istream` can extract into a `long long`. -/
def llongMax : Int := 2 ^ 63 - 1

/-- Minimum value `std::istream` can extract into a `long long`. -/
def llongMin : Int := -(2 ^ 63)

/-- Subtraction of `1` at type `unsigned long`: wraps around at `0`
(`0 - 1` is `2 ^ 64 - 1`). -/
def ulSub1 (n : Nat) : Nat := (n + (2 ^ 64 - 1)) % 2 ^ 64

/-- One input line whose three whitespace-separated fields
`<strRep> <coef> <checkParam>` have been tokenized.  `coef` is the parsed
value of the coefficient field and `coefStr` its textual rendering by
`fmt::format("{}", coef)`; `checkParam` is the mathematical integer written
in the third field (extraction into `long long` fails outside
`[llongMin, llongMax]`, which the embedding of `readLines` checks). -/
structure RawLine where
  strRep : String
  coef : ℚ
  coefStr : String
  checkParam : Int
deriving Repr, DecidableEq

/-- `Parser::QuantumOperator`: index of the operator in the input, string
representation, integer representation (three index lists), coefficient
(parsed value and formatted text), and dependency parameter. -/
structure QuantumOperator where
  index : Nat
  strRep : String
  intOp : List (List Nat)
  coef : ℚ
  coefStr : String
  param : Nat
deriving Repr, DecidableEq

/-- An error as reported by `Parser::printError`: the message of the
`std::invalid_argument` (or the literal format/unknown message) together
with the input line of occurrence.  The reference prints the pair and exits
the process; the embedding propagates it. -/
abbrev ParseErr := String × Nat

/-- `Parser::errorCheck`: returns the message of the thrown
`std::invalid_argument`, if any.  The final comparison
`param > std::numeric_limits<unsigned long>::max()` converts the
`long long` to `unsigned long long`; it is evaluated only after the
`param < 0` branch, so the embedded comparison on the mathematical value is
exact. -/
def errorCheck (numberQubits : Nat) (str : String) (coef : ℚ) (param : Int) : Option String :=
  if str = "" then some "No operator provided!"
  else if str.length ≠ numberQubits then some "Non-matching length of string representation!"
  else if coef = 0 then some "Zero coefficient!"
  else if param < 0 then some "Negative parameter!"
  else if (ulongMax : Int) < param then some "Parameter out of bound!"
  else none

/-- Loop body of `Parser::readLines`: `idx` is the 1-based number of the
head line, `nq0` the current value of the `numberQubits` member (set from
the first line's string length before `errorCheck` runs on it).  The guard
on `checkParam` embeds the `std::istream` extraction into `long long`,
whose failure takes the `"Wrong format!"` branch of the reference. -/
def readLinesAux : List RawLine → Nat → Nat → Except ParseErr (List QuantumOperator × Nat)
  | [], _, nq => .ok ([], nq)
  | l :: rest, idx, nq0 =>
    if l.checkParam < llongMin ∨ llongMax < l.checkParam then .error ("Wrong format!", idx)
    else
      match errorCheck (if idx = 1 then l.strRep.length else nq0) l.strRep l.coef
          l.checkParam with
      | some msg => .error (msg, idx)
      | none =>
        match readLinesAux rest (idx + 1) (if idx = 1 then l.strRep.length else nq0) with
        | .error e => .error e
        | .ok (ops, nqf) =>
          .ok ({ index := idx, strRep := l.strRep, intOp := [], coef := l.coef,
                 coefStr := l.coefStr,
                 param := if l.checkParam = 0 then idx else l.checkParam.toNat } :: ops, nqf)

/-- `Parser::readLines` on the in-memory sequence of input lines; also
returns the resulting `numberQubits` member (uninitialized in the reference
until the first line sets it; embedded as `0`). -/
def readLines (lines : List RawLine) : Except ParseErr (List QuantumOperator × Nat) :=
  readLinesAux lines 1 0

/-- Character loop of `Parser::parseStrInt`; `pos` is the 1-based position
of the head character (`std::distance(in.begin(), ch) + 1`).  The reference
appends positions at the end of the growing vectors while scanning left to
right; consing the current position onto the result of the remaining scan
produces the same lists. -/
def parseStrIntAux : Nat → List Char → Except String (List Nat × List Nat × List Nat)
  | _, [] => .ok ([], [], [])
  | pos, c :: cs =>
    if c = 'I' then parseStrIntAux (pos + 1) cs
    else if c = 'X' then
      match parseStrIntAux (pos + 1) cs with
      | .ok (x, y, z) => .ok (pos :: x, y, z)
      | .error e => .error e
    else if c = 'Y' then
      match parseStrIntAux (pos + 1) cs with
      | .ok (x, y, z) => .ok (x, pos :: y, z)
      | .error e => .error e
    else if c = 'Z' then
      match parseStrIntAux (pos + 1) cs with
      | .ok (x, y, z) => .ok (x, y, pos :: z)
      | .error e => .error e
    else .error "Unsupported character instruction!"

/-- `Parser::parseStrInt`: the vector of the three per-axis index vectors. -/
def parseStrInt (s : String) : Except String (List (List Nat)) :=
  match parseStrIntAux 1 s.data with
  | .ok (x, y, z) => .ok [x, y, z]
  | .error e => .error e

/-- The `vec.empty() ? 0 : *std::max_element(vec.begin(), vec.end())`
expression of `parseOpToQasm`: for a nonempty list of naturals the fold of
`max` from `0` is exactly its greatest element. -/
def listMax (v : List Nat) : Nat := v.foldr max 0

/-- The `lastUsed` value of `Parser::parseOpToQasm`:
`std::max` of the three per-axis maxima (`intOp[0]`, `intOp[1]`, `intOp[2]`). -/
def lastUsed (intOp : List (List Nat)) : Nat :=
  max (max (listMax (intOp.getD 0 [])) (listMax (intOp.getD 1 []))) (listMax (intOp.getD 2 []))

/-- `fmt::format("cx q[{}], q[{}];\n", qubitIdx - 1, lastUsed - 1)`. -/
def cxStr (c t : Nat) : String :=
  "cx q[" ++ toString (ulSub1 c) ++ "], q[" ++ toString (ulSub1 t) ++ "];\n"

/-- `fmt::format("ry(pi/2) q[{}];\n", qubitIdx - 1)`. -/
def ryPlus (q : Nat) : String := "ry(pi/2) q[" ++ toString (ulSub1 q) ++ "];\n"

/-- `fmt::format("ry(-pi/2) q[{}];\n", qubitIdx - 1)`. -/
def ryMinus (q : Nat) : String := "ry(-pi/2) q[" ++ toString (ulSub1 q) ++ "];\n"

/-- `fmt::format("rx(-pi/2) q[{}];\n", qubitIdx - 1)`. -/
def rxMinus (q : Nat) : String := "rx(-pi/2) q[" ++ toString (ulSub1 q) ++ "];\n"

/-- `fmt::format("rx(pi/2) q[{}];\n", qubitIdx - 1)`. -/
def rxPlus (q : Nat) : String := "rx(pi/2) q[" ++ toString (ulSub1 q) ++ "];\n"

/-- The symbolic angle text `{mup}{coef}*$[{param}]` of the central
rotation. -/
def angleText (mup coefStr : String) (param : Nat) : String :=
  mup ++ coefStr ++ "*$[" ++ toString param ++ "]"

/-- `fmt::format("rz({}{}*$[{}]) q[{}];\n", mup, qop.coef, qop.param, lastUsed - 1)`. -/
def rzStr (mup coefStr : String) (param q : Nat) : String :=
  "rz(" ++ angleText mup coefStr param ++ ") q[" ++ toString (ulSub1 q) ++ "];\n"

/-- `fmt::format("\n// New operator from line {}\n", qop.index)`. -/
def opComment (idx : Nat) : String := "\n// New operator from line " ++ toString idx ++ "\n"

/-- The `case 0` loop of `parseOpToQasm` (Pauli-X index vector), folding the
state `(qasmOp, beforeLast, afterLast)` over the vector entries in order. -/
def processX (p : Nat) : List Nat → String × String × String → String × String × String
  | [], st => st
  | i :: rest, (q, bl, al) =>
    if i = p then processX p rest (q, ryPlus i, ryMinus i)
    else processX p rest ((ryPlus i ++ cxStr i p) ++ q ++ (cxStr i p ++ ryMinus i), bl, al)

/-- The `case 1` loop of `parseOpToQasm` (Pauli-Y index vector). -/
def processY (p : Nat) : List Nat → String × String × String → String × String × String
  | [], st => st
  | i :: rest, (q, bl, al) =>
    if i = p then processY p rest (q, rxMinus i, rxPlus i)
    else processY p rest ((rxMinus i ++ cxStr i p) ++ q ++ (cxStr i p ++ rxPlus i), bl, al)

/-- The `case 2` loop of `parseOpToQasm` (Pauli-Z index vector): no basis
change, and nothing at all for the pivot entry. -/
def processZ (p : Nat) : List Nat → String × String × String → String × String × String
  | [], st => st
  | i :: rest, (q, bl, al) =>
    if i = p then processZ p rest (q, bl, al)
    else processZ p rest (cxStr i p ++ q ++ cxStr i p, bl, al)

/-- Loop body of the range-`for` over `qop.intOp` in `parseOpToQasm`: the
`switch` dispatches on
`std::distance(intOp.begin(), std::find(intOp.begin(), intOp.end(), vec))`,
embedded by `findIdx`; the `default` branch calls `std::exit(EXIT_FAILURE)`,
embedded as `none`. -/
def stepFn (intOp : List (List Nat)) (p : Nat) :
    Option (String × String × String) → List Nat → Option (String × String × String) :=
  fun st vec =>
    match st with
    | none => none
    | some s =>
      let d := intOp.findIdx (· == vec)
      if d = 0 then some (processX p vec s)
      else if d = 1 then some (processY p vec s)
      else if d = 2 then some (processZ p vec s)
      else none

/-- `Parser::parseOpToQasm`: the central rotation string, folded through the
per-axis loops, then wrapped in `beforeLast`/`afterLast` and prefixed with
the originating-line comment. -/
def parseOpToQasm (mup : String) (qop : QuantumOperator) : Option String :=
  match qop.intOp.foldl (stepFn qop.intOp (lastUsed qop.intOp))
      (some (rzStr mup qop.coefStr qop.param (lastUsed qop.intOp), "", "")) with
  | none => none
  | some (q, bl, al) => some (opComment qop.index ++ ((bl ++ q) ++ al))

/-- The `mup` member: `"0.5*"` by default, or the caller-supplied multiplier
text followed by `"*"` (`std::to_string(multiplier.value()) + "*"`; the
multiplier travels as its formatted text). -/
def mupOf (multiplier : Option String) : String :=
  match multiplier with
  | some m => m ++ "*"
  | none => "0.5*"

/-- The per-operator work of the `std::for_each` / OpenMP loop bodies:
`parseStrInt` on the operator's string, then `parseOpToQasm`.  A decode
failure is reported through `printError(exception.what(), op.index)`; the
process exit of the dispatch default branch is surfaced as an error pair. -/
def compileOp (mup : String) (op : QuantumOperator) : Except ParseErr (Nat × String) :=
  match parseStrInt op.strRep with
  | .error msg => .error (msg, op.index)
  | .ok intOp =>
    match parseOpToQasm mup { op with intOp := intOp } with
    | none => .error ("EXIT_FAILURE", op.index)
    | some s => .ok (op.index, s)

/-- All per-operator results, aborting at the first failing operator. -/
def compileAll (mup : String) : List QuantumOperator → Except ParseErr (List (Nat × String))
  | [] => .ok []
  | op :: rest =>
    match compileOp mup op with
    | .error e => .error e
    | .ok r =>
      match compileAll mup rest with
      | .error e => .error e
      | .ok rs => .ok (r :: rs)

/-- `std::map<unsigned long, std::string>` as an association list sorted by
key in ascending order; `qasmOperators[op.index] = qasmOp` inserts a new key
or overwrites an existing one. -/
def mapInsert : List (Nat × String) → Nat → String → List (Nat × String)
  | [], k, v => [(k, v)]
  | (k', v') :: rest, k, v =>
    if k < k' then (k, v) :: (k', v') :: rest
    else if k = k' then (k, v) :: rest
    else (k', v') :: mapInsert rest k v

/-- The `qasmOperators` map after every worker has stored its block, given
the per-operator results in the order the workers complete (the writes are
serialized by the mutex / the OpenMP critical section; the sequential
embedding of the loop uses input order, and the aggregation is proved
independent of the order). -/
def aggregateEntries (entries : List (Nat × String)) : List (Nat × String) :=
  entries.foldl (fun m e => mapInsert m e.1 e.2) []

/-- The OpenQASM version specific header of `parseCircuitSeq` /
`parseCircuit`. -/
def headerOf (version : Int) (numberQubits : Nat) : String :=
  if version = 3 then
    "OPENQASM 3.0;\ninclude \"stdgates.inc\";\nqubit[" ++ toString numberQubits ++
      "] q;\nbit[" ++ toString numberQubits ++ "] c;\n"
  else
    "OPENQASM 2.0;\ninclude \"qelib1.inc\";\nqreg q[" ++ toString numberQubits ++
      "];\ncreg c[" ++ toString numberQubits ++ "];\n"

/-- `qasmparser::parseCircuitSeq` on the in-memory line sequence (no output
file: the write-out branch differs from the return value only by its file
side effect).  Header, then every stored block in ascending key order of the
`qasmOperators` map. -/
def parseCircuitSeq (lines : List RawLine) (version : Int) (multiplier : Option String) :
    Except ParseErr String :=
  let mup := mupOf multiplier
  match readLines lines with
  | .error e => .error e
  | .ok (ops, numberQubits) =>
    match compileAll mup ops with
    | .error e => .error e
    | .ok entries =>
      let qasmOperators := aggregateEntries entries
      .ok (headerOf version numberQubits ++ String.join (qasmOperators.map Prod.snd))

/-- `qasmparser::parseCircuit` on the in-memory line sequence.  The OpenMP
branch and the execution-policy branch perform the same per-operator work;
after the header the function concatenates the map's blocks once, and then
the in-memory return path concatenates them a second time. -/
def parseCircuit (lines : List RawLine) (useOpenMP : Bool) (version : Int)
    (multiplier : Option String) : Except ParseErr String :=
  let mup := mupOf multiplier
  match readLines lines with
  | .error e => .error e
  | .ok (ops, numberQubits) =>
    match (if useOpenMP then compileAll mup ops else compileAll mup ops) with
    | .error e => .error e
    | .ok entries =>
      let qasmOperators := aggregateEntries entries
      let blocks := String.join (qasmOperators.map Prod.snd)
      .ok (headerOf version numberQubits ++ blocks ++ blocks)

/-! ### Basis decomposition: `parseStrInt` computes the per-axis position lists -/

/-- Statement-side description of an axis index list: the positions (shifted
by `p`) of the occurrences of `c` in `cs`. -/
def posFrom (p : Nat) (c : Char) (cs : List Char) : List Nat :=
  ((List.range cs.length).filter (fun k => cs.getD k 'I' == c)).map (p + ·)

/-- The 1-based positions of the occurrences of `c` in `cs`. -/
def pauliPositions (c : Char) (cs : List Char) : List Nat := posFrom 1 c cs

theorem posFrom_nil (p : Nat) (c : Char) : posFrom p c [] = [] := rfl

theorem posFrom_cons (p : Nat) (c d : Char) (cs : List Char) :
    posFrom p c (d :: cs) = (if d == c then [p] else []) ++ posFrom (p + 1) c cs := by
  unfold posFrom
  rw [List.length_cons, List.range_succ_eq_map, List.filter_cons]
  by_cases hd : (d == c) = true
  · rw [if_pos (by simpa using hd), if_pos hd]
    simp only [List.map_cons, List.getD_cons_zero, List.filter_map, List.map_map,
      List.cons_append, List.nil_append, Nat.add_zero]
    refine congrArg (List.cons p) ?_
    refine congrArg₂ List.map (funext fun k => by simp only [Function.comp_apply]; omega) ?_
    refine congrArg₂ List.filter (funext fun k => ?_) rfl
    simp [Function.comp]
  · rw [if_neg (by simpa using hd), if_neg hd]
    simp only [List.getD_cons_zero, List.filter_map, List.map_map, List.nil_append]
    refine congrArg₂ List.map (funext fun k => by simp only [Function.comp_apply]; omega) ?_
    refine congrArg₂ List.filter (funext fun k => ?_) rfl
    simp [Function.comp]

theorem parseStrIntAux_eq (cs : List Char) (p : Nat)
    (h : ∀ c ∈ cs, c = 'I' ∨ c = 'X' ∨ c = 'Y' ∨ c = 'Z') :
    parseStrIntAux p cs = .ok (posFrom p 'X' cs, posFrom p 'Y' cs, posFrom p 'Z' cs) := by
  induction cs generalizing p with
  | nil => rfl
  | cons d cs ih =>
    have hrest : ∀ c ∈ cs, c = 'I' ∨ c = 'X' ∨ c = 'Y' ∨ c = 'Z' :=
      fun c hc => h c (List.mem_cons_of_mem d hc)
    have ihp := ih (p + 1) hrest
    rcases h d (List.mem_cons_self d cs) with rfl | rfl | rfl | rfl <;>
      simp [parseStrIntAux, ihp, posFrom_cons]

theorem parseStrIntAux_error (cs : List Char) (p : Nat)
    (h : ∃ c ∈ cs, ¬(c = 'I' ∨ c = 'X' ∨ c = 'Y' ∨ c = 'Z')) :
    parseStrIntAux p cs = .error "Unsupported character instruction!" := by
  induction cs generalizing p with
  | nil => simp at h
  | cons d cs ih =>
    by_cases hd : d = 'I' ∨ d = 'X' ∨ d = 'Y' ∨ d = 'Z'
    · have hrest : ∃ c ∈ cs, ¬(c = 'I' ∨ c = 'X' ∨ c = 'Y' ∨ c = 'Z') := by
        rcases h with ⟨c, hc, hcv⟩
        rcases List.mem_cons.1 hc with rfl | hc'
        · exact absurd hd hcv
        · exact ⟨c, hc', hcv⟩
      have ihp := ih (p + 1) hrest
      rcases hd with rfl | rfl | rfl | rfl <;> simp [parseStrIntAux, ihp]
    · push_neg at hd
      obtain ⟨h1, h2, h3, h4⟩ := hd
      simp [parseStrIntAux, h1, h2, h3, h4]

theorem parseStrInt_eq (s : String)
    (h : ∀ c ∈ s.data, c = 'I' ∨ c = 'X' ∨ c = 'Y' ∨ c = 'Z') :
    parseStrInt s = .ok [pauliPositions 'X' s.data, pauliPositions 'Y' s.data,
      pauliPositions 'Z' s.data] := by
  unfold parseStrInt
  rw [parseStrIntAux_eq s.data 1 h]
  rfl

theorem parseStrInt_ok_valid {s : String} {L : List (List Nat)}
    (h : parseStrInt s = .ok L) : ∀ c ∈ s.data, c = 'I' ∨ c = 'X' ∨ c = 'Y' ∨ c = 'Z' := by
  intro c hcm
  by_contra hcv
  rw [parseStrInt, parseStrIntAux_error s.data 1 ⟨c, hcm, hcv⟩] at h
  exact Except.noConfusion h

theorem parseStrInt_ok_eq {s : String} {L : List (List Nat)}
    (h : parseStrInt s = .ok L) :
    L = [pauliPositions 'X' s.data, pauliPositions 'Y' s.data, pauliPositions 'Z' s.data] := by
  have := parseStrInt_eq s (parseStrInt_ok_valid h)
  rw [h] at this
  exact Except.ok.inj this

theorem mem_posFrom {p : Nat} {c : Char} {cs : List Char} {i : Nat} :
    i ∈ posFrom p c cs ↔ ∃ k, k < cs.length ∧ cs.getD k 'I' = c ∧ i = p + k := by
  simp only [posFrom, List.mem_map, List.mem_filter, List.mem_range, beq_iff_eq]
  constructor
  · rintro ⟨k, ⟨hk, hc⟩, rfl⟩
    exact ⟨k, hk, hc, rfl⟩
  · rintro ⟨k, hk, hc, rfl⟩
    exact ⟨k, ⟨hk, hc⟩, rfl⟩

theorem posFrom_pairwise (p : Nat) (c : Char) (cs : List Char) :
    List.Pairwise (· < ·) (posFrom p c cs) := by
  unfold posFrom
  exact ((List.pairwise_lt_range cs.length).filter _).map _ (fun a b h => by omega)

theorem posFrom_pos {p : Nat} {c : Char} {cs : List Char} {i : Nat}
    (h : i ∈ posFrom p c cs) : p ≤ i ∧ i < p + cs.length := by
  obtain ⟨k, hk, -, rfl⟩ := mem_posFrom.1 h
  omega

theorem posFrom_disjoint {p : Nat} {c₁ c₂ : Char} {cs : List Char} {i : Nat}
    (hc : c₁ ≠ c₂) (h₁ : i ∈ posFrom p c₁ cs) (h₂ : i ∈ posFrom p c₂ cs) : False := by
  obtain ⟨k₁, -, hg₁, hik₁⟩ := mem_posFrom.1 h₁
  obtain ⟨k₂, -, hg₂, hik₂⟩ := mem_posFrom.1 h₂
  have : k₁ = k₂ := by omega
  subst this
  exact hc (hg₁ ▸ hg₂ ▸ rfl)

theorem posFrom_eq_nil_of_eq {p : Nat} {c₁ c₂ : Char} {cs : List Char}
    (hc : c₁ ≠ c₂) (h : posFrom p c₁ cs = posFrom p c₂ cs) : posFrom p c₁ cs = [] := by
  cases he : posFrom p c₁ cs with
  | nil => rfl
  | cons a t =>
    exfalso
    have h₁ : a ∈ posFrom p c₁ cs := by rw [he]; exact List.mem_cons_self a t
    have h₂ : a ∈ posFrom p c₂ cs := by rw [← h, he]; exact List.mem_cons_self a t
    exact posFrom_disjoint hc h₁ h₂

/-- C4: for every basis string over `{I, X, Y, Z}`, `parseStrInt` returns
exactly the three lists of 1-based positions of the `X`, `Y` and `Z`
characters respectively, each strictly ascending, with `I` contributing to
none of them (membership is exactly "the character at that position is the
corresponding letter"); and for any string containing a character outside
`{I, X, Y, Z}` it fails with the decode error instead of returning. -/
theorem parseStrInt_decomposition (s : String) :
    ((∀ c ∈ s.data, c = 'I' ∨ c = 'X' ∨ c = 'Y' ∨ c = 'Z') →
      parseStrInt s = .ok [pauliPositions 'X' s.data, pauliPositions 'Y' s.data,
        pauliPositions 'Z' s.data] ∧
      List.Pairwise (· < ·) (pauliPositions 'X' s.data) ∧
      List.Pairwise (· < ·) (pauliPositions 'Y' s.data) ∧
      List.Pairwise (· < ·) (pauliPositions 'Z' s.data) ∧
      (∀ c i, i ∈ pauliPositions c s.data ↔
        ∃ k, k < s.data.length ∧ s.data.getD k 'I' = c ∧ i = 1 + k)) ∧
    ((∃ c ∈ s.data, ¬(c = 'I' ∨ c = 'X' ∨ c = 'Y' ∨ c = 'Z')) →
      parseStrInt s = .error "Unsupported character instruction!") := by
  constructor
  · intro hv
    refine ⟨parseStrInt_eq s hv, posFrom_pairwise 1 'X' s.data,
      posFrom_pairwise 1 'Y' s.data, posFrom_pairwise 1 'Z' s.data, fun c i => mem_posFrom⟩
  · intro he
    unfold parseStrInt
    rw [parseStrIntAux_error s.data 1 he]

/-- Witness for C4 at the concrete basis strings `"IXYZ"` and `"IXA"`. -/
theorem parseStrInt_decomposition_witness :
    (∀ c ∈ "IXYZ".data, c = 'I' ∨ c = 'X' ∨ c = 'Y' ∨ c = 'Z') ∧
    (∃ c ∈ "IXA".data, ¬(c = 'I' ∨ c = 'X' ∨ c = 'Y' ∨ c = 'Z')) ∧
    parseStrInt "IXYZ" = .ok [pauliPositions 'X' "IXYZ".data, pauliPositions 'Y' "IXYZ".data,
      pauliPositions 'Z' "IXYZ".data] ∧
    parseStrInt "IXA" = .error "Unsupported character instruction!" := by
  refine ⟨by decide, by decide, ?_, ?_⟩
  · exact ((parseStrInt_decomposition "IXYZ").1 (by decide)).1
  · exact (parseStrInt_decomposition "IXA").2 (by decide)

/-! ### Code generation: structure of the per-term block -/

/-- Wrapping a core string in a sequence of mirrored layers, each processed
layer becoming the new outermost wrap (`qasmOp.insert(0, before); qasmOp += after`). -/
def wrapLayers (layers : List (String × String)) (core : String) : String :=
  layers.foldl (fun acc ba => ba.1 ++ acc ++ ba.2) core

/-- The mirrored layer of a non-pivot X-list qubit. -/
def xLayer (p i : Nat) : String × String :=
  (ryPlus i ++ cxStr i p, cxStr i p ++ ryMinus i)

/-- The mirrored layer of a non-pivot Y-list qubit. -/
def yLayer (p i : Nat) : String × String :=
  (rxMinus i ++ cxStr i p, cxStr i p ++ rxPlus i)

/-- The mirrored layer of a non-pivot Z-list qubit. -/
def zLayer (p i : Nat) : String × String :=
  (cxStr i p, cxStr i p)

/-- All non-pivot layers of a term in processing order: X list first, then
Y list, then Z list, each in list order. -/
def termLayers (x y z : List Nat) (p : Nat) : List (String × String) :=
  (x.filter (· != p)).map (xLayer p) ++ (y.filter (· != p)).map (yLayer p) ++
    (z.filter (· != p)).map (zLayer p)

/-- The `beforeLast` string after all three loops: the pivot's basis-change
rotation when the pivot is listed in the X or Y list, empty otherwise. -/
def pivotBefore (x y : List Nat) (p : Nat) : String :=
  if p ∈ y then rxMinus p else if p ∈ x then ryPlus p else ""

/-- The `afterLast` string after all three loops. -/
def pivotAfter (x y : List Nat) (p : Nat) : String :=
  if p ∈ y then rxPlus p else if p ∈ x then ryMinus p else ""

theorem wrapLayers_append (L₁ L₂ : List (String × String)) (c : String) :
    wrapLayers (L₁ ++ L₂) c = wrapLayers L₂ (wrapLayers L₁ c) :=
  List.foldl_append ..

theorem processX_eq (p : Nat) (v : List Nat) (q bl al : String) :
    processX p v (q, bl, al) =
      (wrapLayers ((v.filter (· != p)).map (xLayer p)) q,
        if p ∈ v then ryPlus p else bl,
        if p ∈ v then ryMinus p else al) := by
  induction v generalizing q bl al with
  | nil => simp [processX, wrapLayers]
  | cons i rest ih =>
    by_cases hip : i = p
    · subst hip
      simp [processX, ih, List.filter_cons, List.mem_cons, ite_self]
    · have hpi : ¬(p = i) := fun h => hip h.symm
      simp [processX, hip, ih, List.filter_cons, List.mem_cons, hpi, wrapLayers, xLayer]

theorem processY_eq (p : Nat) (v : List Nat) (q bl al : String) :
    processY p v (q, bl, al) =
      (wrapLayers ((v.filter (· != p)).map (yLayer p)) q,
        if p ∈ v then rxMinus p else bl,
        if p ∈ v then rxPlus p else al) := by
  induction v generalizing q bl al with
  | nil => simp [processY, wrapLayers]
  | cons i rest ih =>
    by_cases hip : i = p
    · subst hip
      simp [processY, ih, List.filter_cons, List.mem_cons, ite_self]
    · have hpi : ¬(p = i) := fun h => hip h.symm
      simp [processY, hip, ih, List.filter_cons, List.mem_cons, hpi, wrapLayers, yLayer]

theorem processZ_eq (p : Nat) (v : List Nat) (q bl al : String) :
    processZ p v (q, bl, al) =
      (wrapLayers ((v.filter (· != p)).map (zLayer p)) q, bl, al) := by
  induction v generalizing q bl al with
  | nil => simp [processZ, wrapLayers]
  | cons i rest ih =>
    by_cases hip : i = p
    · subst hip
      simp [processZ, ih, List.filter_cons]
    · simp [processZ, hip, ih, List.filter_cons, wrapLayers, zLayer]

theorem foldSteps (x y z : List Nat) (p : Nat) (init : String × String × String)
    (hxy : x = y → y = []) (hxz : x = z → z = []) (hyz : y = z → z = []) :
    [x, y, z].foldl (stepFn [x, y, z] p) (some init) =
      some (processZ p z (processY p y (processX p x init))) := by
  have hx0 : List.findIdx (· == x) [x, y, z] = 0 := by
    simp [List.findIdx_cons]
  have step1 : stepFn [x, y, z] p (some init) x = some (processX p x init) := by
    simp [stepFn, hx0]
  have step2 : ∀ s, stepFn [x, y, z] p (some s) y = some (processY p y s) := by
    intro s
    by_cases hxy' : x = y
    · have hy : y = [] := hxy hxy'
      have hx : x = [] := hxy' ▸ hy
      subst hy
      subst hx
      simp [stepFn, List.findIdx_cons, processX, processY]
    · have hbeq : (x == y) = false := by
        simpa using hxy'
      simp [stepFn, List.findIdx_cons, hbeq]
  have step3 : ∀ s, stepFn [x, y, z] p (some s) z = some (processZ p z s) := by
    intro s
    by_cases hxz' : x = z
    · have hz : z = [] := hxz hxz'
      have hx : x = [] := hxz' ▸ hz
      subst hz
      subst hx
      simp [stepFn, List.findIdx_cons, processX, processZ]
    · by_cases hyz' : y = z
      · have hz : z = [] := hyz hyz'
        have hy : y = [] := hyz' ▸ hz
        subst hz
        subst hy
        rcases x with _ | ⟨a, t⟩
        · exact absurd rfl hxz'
        · simp [stepFn, List.findIdx_cons, processY, processZ]
      · have hbeq₁ : (x == z) = false := by simpa using hxz'
        have hbeq₂ : (y == z) = false := by simpa using hyz'
        simp [stepFn, List.findIdx_cons, hbeq₁, hbeq₂]
  simp only [List.foldl_cons, List.foldl_nil, step1, step2, step3]

/-- Structure of the emitted block of one term: the originating-line comment,
then the pivot's basis-change pair (if any) as the absolute outermost wrap,
around the non-pivot layers (X list, then Y list, then Z list, each layer
outside the previously accumulated instructions), around the central
parameterized rotation. -/
theorem parseOpToQasm_structure (mup : String) (qop : QuantumOperator) (x y z : List Nat)
    (p : Nat) (hop : qop.intOp = [x, y, z]) (hp : p = lastUsed qop.intOp)
    (hxy : x = y → y = []) (hxz : x = z → z = []) (hyz : y = z → z = []) :
    parseOpToQasm mup qop =
      some (opComment qop.index ++
        ((pivotBefore x y p ++
          wrapLayers (termLayers x y z p) (rzStr mup qop.coefStr qop.param p)) ++
          pivotAfter x y p)) := by
  subst hp
  unfold parseOpToQasm
  rw [hop]
  rw [foldSteps x y z (lastUsed [x, y, z]) _ hxy hxz hyz]
  rw [processX_eq, processY_eq, processZ_eq]
  simp only [termLayers, wrapLayers_append, pivotBefore, pivotAfter]

/-! ### The pivot is the maximum listed index -/

theorem foldr_max_append (l₁ l₂ : List Nat) :
    (l₁ ++ l₂).foldr max 0 = max (l₁.foldr max 0) (l₂.foldr max 0) := by
  induction l₁ with
  | nil => simp
  | cons a t ih => simp [ih, Nat.max_assoc]

theorem le_foldr_max {l : List Nat} {i : Nat} (h : i ∈ l) : i ≤ l.foldr max 0 := by
  induction l with
  | nil => simp at h
  | cons a t ih =>
    rcases List.mem_cons.1 h with rfl | h'
    · exact Nat.le_max_left _ _
    · exact Nat.le_trans (ih h') (Nat.le_max_right _ _)

theorem foldr_max_mem {l : List Nat} (h : l ≠ []) : l.foldr max 0 ∈ l := by
  induction l with
  | nil => exact absurd rfl h
  | cons a t ih =>
    cases t with
    | nil => simp
    | cons b t' =>
      rcases max_choice a ((b :: t').foldr max 0) with h1 | h1


      · simp only [List.foldr_cons] at h1 ⊢
        rw [h1]
        exact List.mem_cons_self _ _
      · simp only [List.foldr_cons] at h1 ⊢
        rw [h1]
        exact List.mem_cons_of_mem _ (ih (by simp))

theorem lastUsed_eq (x y z : List Nat) :
    lastUsed [x, y, z] = (x ++ y ++ z).foldr max 0 := by
  show max (max (x.foldr max 0) (y.foldr max 0)) (z.foldr max 0) = _
  rw [foldr_max_append, foldr_max_append, Nat.max_assoc]

theorem parseStrInt_components {qop : QuantumOperator} {x y z : List Nat}
    (hok : parseStrInt qop.strRep = .ok qop.intOp) (hop : qop.intOp = [x, y, z]) :
    x = pauliPositions 'X' qop.strRep.data ∧ y = pauliPositions 'Y' qop.strRep.data ∧
      z = pauliPositions 'Z' qop.strRep.data := by
  have hL := parseStrInt_ok_eq hok
  rw [hop] at hL
  simpa using hL

theorem components_disjoint {qop : QuantumOperator} {x y z : List Nat}
    (hok : parseStrInt qop.strRep = .ok qop.intOp) (hop : qop.intOp = [x, y, z]) :
    (x = y → y = []) ∧ (x = z → z = []) ∧ (y = z → z = []) := by
  obtain ⟨hx, hy, hz⟩ := parseStrInt_components hok hop
  subst hx; subst hy; subst hz
  refine ⟨fun h => ?_, fun h => ?_, fun h => ?_⟩
  · rw [← h]
    exact posFrom_eq_nil_of_eq (by decide) h
  · rw [← h]
    exact posFrom_eq_nil_of_eq (by decide) h
  · rw [← h]
    exact posFrom_eq_nil_of_eq (by decide) h

/-- C2: for a term with at least one non-identity letter, the pivot
(`lastUsed`) is the maximum 1-based index across the X, Y and Z index
lists; each non-pivot listed qubit contributes one mirrored layer
(basis-change pair plus CNOT pair for X and Y, CNOT pair alone for Z)
wrapped outside the instructions accumulated so far, the X list first in
ascending order, then the Y list, then the Z list; and the pivot's own
basis-change pair (present exactly when the pivot is listed in the X or Y
list) is the absolute outermost wrap of the block. -/
theorem pivot_max_and_layer_nesting (mup : String) (qop : QuantumOperator)
    (x y z : List Nat) (p : Nat)
    (hok : parseStrInt qop.strRep = .ok qop.intOp) (hop : qop.intOp = [x, y, z])
    (hp : p = lastUsed qop.intOp) (hne : x ++ y ++ z ≠ []) :
    (∀ i ∈ x ++ y ++ z, i ≤ p) ∧
    p ∈ x ++ y ++ z ∧
    List.Pairwise (· < ·) x ∧ List.Pairwise (· < ·) y ∧ List.Pairwise (· < ·) z ∧
    parseOpToQasm mup qop =
      some (opComment qop.index ++
        ((pivotBefore x y p ++
          wrapLayers (termLayers x y z p) (rzStr mup qop.coefStr qop.param p)) ++
          pivotAfter x y p)) := by
  obtain ⟨hxy, hxz, hyz⟩ := components_disjoint hok hop
  obtain ⟨hx, hy, hz⟩ := parseStrInt_components hok hop
  have hpmax : p = (x ++ y ++ z).foldr max 0 := by
    rw [hp, hop, lastUsed_eq]
  refine ⟨?_, ?_, ?_, ?_, ?_, ?_⟩
  · intro i hi
    rw [hpmax]
    exact le_foldr_max hi
  · rw [hpmax]
    exact foldr_max_mem hne
  · rw [hx]
    exact posFrom_pairwise 1 'X' qop.strRep.data
  · rw [hy]
    exact posFrom_pairwise 1 'Y' qop.strRep.data
  · rw [hz]
    exact posFrom_pairwise 1 'Z' qop.strRep.data
  · exact parseOpToQasm_structure mup qop x y z p hop hp hxy hxz hyz

/-- Witness for C2 at the term `"XZY"` (X on qubit 1, Z on qubit 2, Y on
qubit 3; the pivot is qubit 3, drawn from the Y list). -/
theorem pivot_max_and_layer_nesting_witness :
    (parseStrInt "XZY" = .ok [[1], [3], [2]]) ∧
    ([1] ++ [3] ++ [2] ≠ ([] : List Nat)) ∧
    ((∀ i ∈ [1] ++ [3] ++ [2], i ≤ 3) ∧
      3 ∈ [1] ++ [3] ++ [2] ∧
      List.Pairwise (· < ·) [1] ∧ List.Pairwise (· < ·) [3] ∧ List.Pairwise (· < ·) [2] ∧
      parseOpToQasm "0.5*" ⟨1, "XZY", [[1], [3], [2]], 1, "1", 1⟩ =
        some (opComment 1 ++
          ((pivotBefore [1] [3] 3 ++
            wrapLayers (termLayers [1] [3] [2] 3) (rzStr "0.5*" "1" 1 3)) ++
            pivotAfter [1] [3] 3))) := by
  refine ⟨rfl, by decide, ?_⟩
  exact pivot_max_and_layer_nesting "0.5*" ⟨1, "XZY", [[1], [3], [2]], 1, "1", 1⟩
    [1] [3] [2] 3 rfl rfl rfl (by decide)

/-! ### Instruction-level view of an emitted block

The emitted text of a term is the rendering of a sequence of OpenQASM
instructions; `renderInstr` reproduces the exact `fmt::format` texts of
`parseOpToQasm`, and the rendering of `termInstrs` is proved equal to the
string the embedded `parseOpToQasm` produces. -/

/-- One OpenQASM instruction emitted by `parseOpToQasm`, with the qubit
operands still in their 1-based form (the `- 1` of the reference is applied
by the rendering). -/
inductive Instr where
  | comment (line : Nat)
  | rz (angle : String) (q : Nat)
  | ryPlus (q : Nat)
  | ryMinus (q : Nat)
  | rxPlus (q : Nat)
  | rxMinus (q : Nat)
  | cx (c t : Nat)
deriving Repr, DecidableEq

/-- The exact text of one instruction. -/
def renderInstr : Instr → String
  | .comment l => opComment l
  | .rz a q => "rz(" ++ a ++ ") q[" ++ toString (ulSub1 q) ++ "];\n"
  | .ryPlus q => ryPlus q
  | .ryMinus q => ryMinus q
  | .rxPlus q => rxPlus q
  | .rxMinus q => rxMinus q
  | .cx c t => cxStr c t

/-- The text of an instruction sequence. -/
def renderAll (l : List Instr) : String :=
  l.foldr (fun i acc => renderInstr i ++ acc) ""

/-- Instruction form of the X-qubit layer. -/
def xLayerI (p i : Nat) : List Instr × List Instr :=
  ([.ryPlus i, .cx i p], [.cx i p, .ryMinus i])

/-- Instruction form of the Y-qubit layer. -/
def yLayerI (p i : Nat) : List Instr × List Instr :=
  ([.rxMinus i, .cx i p], [.cx i p, .rxPlus i])

/-- Instruction form of the Z-qubit layer. -/
def zLayerI (p i : Nat) : List Instr × List Instr :=
  ([.cx i p], [.cx i p])

/-- Instruction form of `wrapLayers`. -/
def wrapLayersI (layers : List (List Instr × List Instr)) (core : List Instr) : List Instr :=
  layers.foldl (fun acc ba => ba.1 ++ acc ++ ba.2) core

/-- Instruction form of `termLayers`. -/
def termLayersI (x y z : List Nat) (p : Nat) : List (List Instr × List Instr) :=
  (x.filter (· != p)).map (xLayerI p) ++ (y.filter (· != p)).map (yLayerI p) ++
    (z.filter (· != p)).map (zLayerI p)

/-- Instruction form of `pivotBefore`. -/
def pivotBeforeI (x y : List Nat) (p : Nat) : List Instr :=
  if p ∈ y then [.rxMinus p] else if p ∈ x then [.ryPlus p] else []

/-- Instruction form of `pivotAfter`. -/
def pivotAfterI (x y : List Nat) (p : Nat) : List Instr :=
  if p ∈ y then [.rxPlus p] else if p ∈ x then [.ryMinus p] else []

/-- The instruction sequence of one term's emitted block. -/
def termInstrs (mup : String) (qop : QuantumOperator) (x y z : List Nat) (p : Nat) :
    List Instr :=
  .comment qop.index ::
    ((pivotBeforeI x y p ++
        wrapLayersI (termLayersI x y z p) [.rz (angleText mup qop.coefStr qop.param) p]) ++
      pivotAfterI x y p)

/-- Recognizer of the central parameterized rotation. -/
def isRz : Instr → Bool
  | .rz _ _ => true
  | _ => false

theorem renderAll_cons (a : Instr) (l : List Instr) :
    renderAll (a :: l) = renderInstr a ++ renderAll l := rfl

theorem renderAll_append (l₁ l₂ : List Instr) :
    renderAll (l₁ ++ l₂) = renderAll l₁ ++ renderAll l₂ := by
  induction l₁ with
  | nil =>
    show renderAll l₂ = "" ++ renderAll l₂
    rw [String.empty_append]
  | cons a t ih =>
    show renderInstr a ++ renderAll (t ++ l₂) = (renderInstr a ++ renderAll t) ++ renderAll l₂
    rw [ih, String.append_assoc]

theorem renderAll_wrapLayersI (layers : List (List Instr × List Instr)) (core : List Instr) :
    renderAll (wrapLayersI layers core) =
      wrapLayers (layers.map (fun ba => (renderAll ba.1, renderAll ba.2))) (renderAll core) := by
  induction layers generalizing core with
  | nil => rfl
  | cons ba L ih =>
    show renderAll (wrapLayersI L (ba.1 ++ core ++ ba.2)) = _
    rw [ih, renderAll_append, renderAll_append]
    rfl

theorem renderPair_xLayerI (p i : Nat) :
    (renderAll (xLayerI p i).1, renderAll (xLayerI p i).2) = xLayer p i := by
  simp [xLayerI, xLayer, renderAll, renderInstr, String.append_empty]

theorem renderPair_yLayerI (p i : Nat) :
    (renderAll (yLayerI p i).1, renderAll (yLayerI p i).2) = yLayer p i := by
  simp [yLayerI, yLayer, renderAll, renderInstr, String.append_empty]

theorem renderPair_zLayerI (p i : Nat) :
    (renderAll (zLayerI p i).1, renderAll (zLayerI p i).2) = zLayer p i := by
  simp [zLayerI, zLayer, renderAll, renderInstr, String.append_empty]

theorem renderAll_pivotBeforeI (x y : List Nat) (p : Nat) :
    renderAll (pivotBeforeI x y p) = pivotBefore x y p := by
  unfold pivotBeforeI pivotBefore
  split_ifs <;> simp [renderAll, renderInstr, String.append_empty]

theorem renderAll_pivotAfterI (x y : List Nat) (p : Nat) :
    renderAll (pivotAfterI x y p) = pivotAfter x y p := by
  unfold pivotAfterI pivotAfter
  split_ifs <;> simp [renderAll, renderInstr, String.append_empty]

theorem renderAll_termInstrs (mup : String) (qop : QuantumOperator) (x y z : List Nat)
    (p : Nat) :
    renderAll (termInstrs mup qop x y z p) =
      opComment qop.index ++
        ((pivotBefore x y p ++
          wrapLayers (termLayers x y z p) (rzStr mup qop.coefStr qop.param p)) ++
          pivotAfter x y p) := by
  unfold termInstrs
  rw [renderAll_cons, renderAll_append, renderAll_append, renderAll_wrapLayersI,
    renderAll_pivotBeforeI, renderAll_pivotAfterI]
  have hcore : renderAll [Instr.rz (angleText mup qop.coefStr qop.param) p] =
      rzStr mup qop.coefStr qop.param p := by
    simp [renderAll, renderInstr, rzStr, String.append_empty]
  have hlayers : (termLayersI x y z p).map (fun ba => (renderAll ba.1, renderAll ba.2)) =
      termLayers x y z p := by
    unfold termLayersI termLayers
    rw [List.map_append, List.map_append, List.map_map, List.map_map, List.map_map]
    exact congrArg₂ _
      (congrArg₂ _ (List.map_congr_left fun i _ => renderPair_xLayerI p i)
        (List.map_congr_left fun i _ => renderPair_yLayerI p i))
      (List.map_congr_left fun i _ => renderPair_zLayerI p i)
  rw [hcore, hlayers]
  rfl

theorem mem_wrapLayersI {a : Instr} (layers : List (List Instr × List Instr))
    (core : List Instr) :
    a ∈ wrapLayersI layers core ↔
      a ∈ core ∨ ∃ ba ∈ layers, a ∈ ba.1 ∨ a ∈ ba.2 := by
  induction layers generalizing core with
  | nil => simp [wrapLayersI]
  | cons ba L ih =>
    show a ∈ wrapLayersI L (ba.1 ++ core ++ ba.2) ↔ _
    rw [ih]
    simp only [List.mem_append, List.mem_cons]
    constructor
    · rintro (((h | h) | h) | ⟨bb, hbb, hh⟩)
      · exact Or.inr ⟨ba, Or.inl rfl, Or.inl h⟩
      · exact Or.inl h
      · exact Or.inr ⟨ba, Or.inl rfl, Or.inr h⟩
      · exact Or.inr ⟨bb, Or.inr hbb, hh⟩
    · rintro (h | ⟨bb, (rfl | hbb), hh⟩)
      · exact Or.inl (Or.inl (Or.inr h))
      · rcases hh with h | h
        · exact Or.inl (Or.inl (Or.inl h))
        · exact Or.inl (Or.inr h)
      · exact Or.inr ⟨bb, hbb, hh⟩

theorem filter_wrapLayersI (pred : Instr → Bool) (layers : List (List Instr × List Instr))
    (core : List Instr)
    (h : ∀ ba ∈ layers, ba.1.filter pred = [] ∧ ba.2.filter pred = []) :
    (wrapLayersI layers core).filter pred = core.filter pred := by
  induction layers generalizing core with
  | nil => rfl
  | cons ba L ih =>
    show (wrapLayersI L (ba.1 ++ core ++ ba.2)).filter pred = _
    rw [ih _ (fun bb hbb => h bb (List.mem_cons_of_mem ba hbb))]
    have hba := h ba (List.mem_cons_self ba L)
    rw [List.filter_append, List.filter_append, hba.1, hba.2]
    simp

theorem mem_termInstrs_cx {mup : String} {qop : QuantumOperator} {x y z : List Nat}
    {p c t : Nat} (h : Instr.cx c t ∈ termInstrs mup qop x y z p) :
    t = p ∧ c ≠ p ∧ (c ∈ x ∨ c ∈ y ∨ c ∈ z) := by
  unfold termInstrs at h
  rcases List.mem_cons.1 h with hc | h'
  · exact absurd hc (by simp)
  rcases List.mem_append.1 h' with h'' | hA
  · rcases List.mem_append.1 h'' with hB | hW
    · exfalso
      unfold pivotBeforeI at hB
      split_ifs at hB <;> simp at hB
    · rcases (mem_wrapLayersI _ _).1 hW with hcore | ⟨ba, hba, hhalf⟩
      · exact absurd hcore (by simp)
      · unfold termLayersI at hba
        rcases List.mem_append.1 hba with hba' | hbz
        · rcases List.mem_append.1 hba' with hbx | hby
          · obtain ⟨i, hi, rfl⟩ := List.mem_map.1 hbx
            have hif := List.mem_filter.1 hi
            have hinep : i ≠ p := by simpa using hif.2
            rcases hhalf with hh | hh <;> simp [xLayerI] at hh <;>
              obtain ⟨rfl, rfl⟩ := hh
            · exact ⟨rfl, hinep, Or.inl hif.1⟩
            · exact ⟨rfl, hinep, Or.inl hif.1⟩
          · obtain ⟨i, hi, rfl⟩ := List.mem_map.1 hby
            have hif := List.mem_filter.1 hi
            have hinep : i ≠ p := by simpa using hif.2
            rcases hhalf with hh | hh <;> simp [yLayerI] at hh <;>
              obtain ⟨rfl, rfl⟩ := hh
            · exact ⟨rfl, hinep, Or.inr (Or.inl hif.1)⟩
            · exact ⟨rfl, hinep, Or.inr (Or.inl hif.1)⟩
        · obtain ⟨i, hi, rfl⟩ := List.mem_map.1 hbz
          have hif := List.mem_filter.1 hi
          have hinep : i ≠ p := by simpa using hif.2
          rcases hhalf with hh | hh <;> simp [zLayerI] at hh <;>
            obtain ⟨rfl, rfl⟩ := hh
          · exact ⟨rfl, hinep, Or.inr (Or.inr hif.1)⟩
          · exact ⟨rfl, hinep, Or.inr (Or.inr hif.1)⟩
  · exfalso
    unfold pivotAfterI at hA
    split_ifs at hA <;> simp at hA

/-- C10: in every block emitted for a term, the emitted text is the
rendering of an instruction sequence in which every CNOT has the listed
(non-pivot) qubit as control and the pivot as target; control and target
are distinct, both as 1-based indices and after the `- 1` rendering. -/
theorem cx_control_target_distinct (mup : String) (qop : QuantumOperator)
    (x y z : List Nat) (p : Nat)
    (hok : parseStrInt qop.strRep = .ok qop.intOp) (hop : qop.intOp = [x, y, z])
    (hp : p = lastUsed qop.intOp) (hlen : qop.strRep.data.length < 2 ^ 64) :
    parseOpToQasm mup qop = some (renderAll (termInstrs mup qop x y z p)) ∧
    (∀ c t, Instr.cx c t ∈ termInstrs mup qop x y z p →
      t = p ∧ c ≠ p ∧ (c ∈ x ∨ c ∈ y ∨ c ∈ z) ∧ ulSub1 c ≠ ulSub1 t) := by
  obtain ⟨hxy, hxz, hyz⟩ := components_disjoint hok hop
  obtain ⟨hx, hy, hz⟩ := parseStrInt_components hok hop
  constructor
  · rw [parseOpToQasm_structure mup qop x y z p hop hp hxy hxz hyz, renderAll_termInstrs]
  · intro c t hmem
    obtain ⟨ht, hcp, hcl⟩ := mem_termInstrs_cx hmem
    refine ⟨ht, hcp, hcl, ?_⟩
    have hcb : 1 ≤ c ∧ c < 1 + qop.strRep.data.length := by
      rcases hcl with h | h | h
      · exact posFrom_pos (hx ▸ h)
      · exact posFrom_pos (hy ▸ h)
      · exact posFrom_pos (hz ▸ h)
    have hne2 : x ++ y ++ z ≠ [] := by
      intro h0
      rw [List.append_eq_nil, List.append_eq_nil] at h0
      rcases hcl with h | h | h
      · rw [h0.1.1] at h
        exact List.not_mem_nil c h
      · rw [h0.1.2] at h
        exact List.not_mem_nil c h
      · rw [h0.2] at h
        exact List.not_mem_nil c h
    have hpmem : p ∈ x ++ y ++ z := by
      rw [hp, hop, lastUsed_eq]
      exact foldr_max_mem hne2
    have hpb : 1 ≤ p ∧ p < 1 + qop.strRep.data.length := by
      rcases List.mem_append.1 hpmem with h | h
      · rcases List.mem_append.1 h with h' | h'
        · exact posFrom_pos (hx ▸ h')
        · exact posFrom_pos (hy ▸ h')
      · exact posFrom_pos (hz ▸ h)
    have h1 : ulSub1 c = c - 1 := by
      unfold ulSub1
      omega
    have h2 : ulSub1 p = p - 1 := by
      unfold ulSub1
      omega
    rw [ht, h1, h2]
    omega

/-- Witness for C10 at the term `"XZ"` (pivot qubit 2, one CNOT with
control qubit 1). -/
theorem cx_control_target_distinct_witness :
    (parseStrInt "XZ" = .ok [[1], [], [2]]) ∧
    ("XZ".data.length < 2 ^ 64) ∧
    (parseOpToQasm "0.5*" ⟨1, "XZ", [[1], [], [2]], 1, "1", 1⟩ =
        some (renderAll (termInstrs "0.5*" ⟨1, "XZ", [[1], [], [2]], 1, "1", 1⟩ [1] [] [2] 2)) ∧
      (∀ c t, Instr.cx c t ∈ termInstrs "0.5*" ⟨1, "XZ", [[1], [], [2]], 1, "1", 1⟩ [1] [] [2] 2 →
        t = 2 ∧ c ≠ 2 ∧ (c ∈ [1] ∨ c ∈ ([] : List Nat) ∨ c ∈ [2]) ∧ ulSub1 c ≠ ulSub1 t)) := by
  refine ⟨rfl, by decide, ?_⟩
  exact cx_control_target_distinct "0.5*" ⟨1, "XZ", [[1], [], [2]], 1, "1", 1⟩
    [1] [] [2] 2 rfl rfl rfl (by decide)

/-! ### Loader lemmas -/

/-- The operator record `readLines` builds from the line at 1-based number
`idx` (after all checks passed). -/
def mkOp (l : RawLine) (idx : Nat) : QuantumOperator :=
  { index := idx, strRep := l.strRep, intOp := [], coef := l.coef, coefStr := l.coefStr,
    param := if l.checkParam = 0 then idx else l.checkParam.toNat }

/-- The operator records of a line sequence whose head carries 1-based
number `idx`. -/
def buildOps : List RawLine → Nat → List QuantumOperator
  | [], _ => []
  | l :: rest, idx => mkOp l idx :: buildOps rest (idx + 1)

theorem readLinesAux_ok_ops : ∀ {ls : List RawLine} {idx nq : Nat}
    {ops : List QuantumOperator} {nqf : Nat},
    readLinesAux ls idx nq = .ok (ops, nqf) → ops = buildOps ls idx := by
  intro ls
  induction ls with
  | nil =>
    intro idx nq ops nqf h
    simp only [readLinesAux, Except.ok.injEq, Prod.mk.injEq] at h
    exact h.1.symm
  | cons l rest ih =>
    intro idx nq ops nqf h
    unfold readLinesAux at h
    split at h
    · exact Except.noConfusion h
    · split at h
      · exact Except.noConfusion h
      · split at h
        · exact Except.noConfusion h
        · rename_i ops₂ nq₂ hrec
          simp only [Except.ok.injEq, Prod.mk.injEq] at h
          rw [← h.1, buildOps]
          exact congrArg _ (ih hrec)

theorem buildOps_length (ls : List RawLine) (idx : Nat) :
    (buildOps ls idx).length = ls.length := by
  induction ls generalizing idx with
  | nil => rfl
  | cons l rest ih => simp [buildOps, ih]

theorem buildOps_map_index (ls : List RawLine) (idx : Nat) :
    (buildOps ls idx).map (·.index) = List.range' idx ls.length := by
  induction ls generalizing idx with
  | nil => rfl
  | cons l rest ih => simp [buildOps, List.range'_succ, ih, mkOp]

theorem buildOps_get (ls : List RawLine) (idx : Nat) (k : Nat)
    (hk : k < (buildOps ls idx).length) (hk' : k < ls.length) :
    (buildOps ls idx).get ⟨k, hk⟩ = mkOp (ls.get ⟨k, hk'⟩) (idx + k) := by
  induction ls generalizing idx k with
  | nil => exact absurd hk' (by simp)
  | cons l rest ih =>
    cases k with
    | zero => rfl
    | succ k =>
      have := ih (idx + 1) k (by simpa [buildOps] using hk) (by simpa using hk')
      simpa [buildOps, Nat.add_assoc, Nat.add_comm 1 k] using this

theorem readLinesAux_nq_stable : ∀ {ls : List RawLine} {idx nq : Nat}
    {ops : List QuantumOperator} {nqf : Nat}, 2 ≤ idx →
    readLinesAux ls idx nq = .ok (ops, nqf) → nqf = nq := by
  intro ls
  induction ls with
  | nil =>
    intro idx nq ops nqf _ h
    simp only [readLinesAux, Except.ok.injEq, Prod.mk.injEq] at h
    exact h.2.symm
  | cons l rest ih =>
    intro idx nq ops nqf hidx h
    unfold readLinesAux at h
    rw [if_neg (by omega : ¬idx = 1)] at h
    split at h
    · exact Except.noConfusion h
    · split at h
      · exact Except.noConfusion h
      · split at h
        · exact Except.noConfusion h
        · rename_i ops₂ nq₂ hrec
          simp only [Except.ok.injEq, Prod.mk.injEq] at h
          rw [← h.2]
          exact ih (by omega) hrec

theorem readLines_nq {l : RawLine} {ls : List RawLine} {ops : List QuantumOperator}
    {nqf : Nat} (h : readLines (l :: ls) = .ok (ops, nqf)) : nqf = l.strRep.length := by
  unfold readLines readLinesAux at h
  split at h
  · exact Except.noConfusion h
  · rw [if_pos rfl] at h
    split at h
    · exact Except.noConfusion h
    · split at h
      · exact Except.noConfusion h
      · rename_i ops₂ nq₂ hrec
        simp only [Except.ok.injEq, Prod.mk.injEq] at h
        rw [← h.2]
        exact readLinesAux_nq_stable (by omega) hrec

theorem readLinesAux_append_err : ∀ {pre : List RawLine} {idx nq nq' : Nat}
    {ops : List QuantumOperator} {suf : List RawLine} {e : ParseErr},
    readLinesAux pre idx nq = .ok (ops, nq') →
    readLinesAux suf (idx + pre.length) nq' = .error e →
    readLinesAux (pre ++ suf) idx nq = .error e := by
  intro pre
  induction pre with
  | nil =>
    intro idx nq nq' ops suf e hpre hsuf
    simp only [readLinesAux, Except.ok.injEq, Prod.mk.injEq] at hpre
    rw [← hpre.2] at hsuf
    simpa using hsuf
  | cons l pre ih =>
    intro idx nq nq' ops suf e hpre hsuf
    unfold readLinesAux at hpre
    show readLinesAux (l :: (pre ++ suf)) idx nq = .error e
    unfold readLinesAux
    split at hpre
    · exact Except.noConfusion hpre
    · rename_i hg
      rw [if_neg hg]
      cases hec : errorCheck (if idx = 1 then l.strRep.length else nq) l.strRep l.coef
          l.checkParam with
      | some msg =>
        rw [hec] at hpre
        exact Except.noConfusion hpre
      | none =>
        rw [hec] at hpre
        cases hrec : readLinesAux pre (idx + 1) (if idx = 1 then l.strRep.length else nq) with
        | error e' =>
          rw [hrec] at hpre
          exact Except.noConfusion hpre
        | ok pr =>
          obtain ⟨ops₂, nq₂⟩ := pr
          rw [hrec] at hpre
          simp only [Except.ok.injEq, Prod.mk.injEq] at hpre
          have hsuf' : readLinesAux suf (idx + 1 + pre.length) nq₂ = .error e := by
            rw [hpre.2]
            rw [show idx + 1 + pre.length = idx + (l :: pre).length by simp; omega]
            exact hsuf
          rw [ih hrec hsuf']

theorem readLinesAux_cons_format (l : RawLine) (rest : List RawLine) (idx nq : Nat)
    (hg : l.checkParam < llongMin ∨ llongMax < l.checkParam) :
    readLinesAux (l :: rest) idx nq = .error ("Wrong format!", idx) := by
  unfold readLinesAux
  rw [if_pos hg]

theorem readLinesAux_cons_error (l : RawLine) (rest : List RawLine) (idx nq : Nat)
    (msg : String)
    (hg : ¬(l.checkParam < llongMin ∨ llongMax < l.checkParam))
    (hec : errorCheck (if idx = 1 then l.strRep.length else nq) l.strRep l.coef
      l.checkParam = some msg) :
    readLinesAux (l :: rest) idx nq = .error (msg, idx) := by
  unfold readLinesAux
  rw [if_neg hg, hec]

theorem errorCheck_length (nq : Nat) (s : String) (c : ℚ) (par : Int)
    (hs : s ≠ "") (hlen : s.length ≠ nq) :
    errorCheck nq s c par = some "Non-matching length of string representation!" := by
  unfold errorCheck
  rw [if_neg hs, if_pos hlen]

theorem errorCheck_negative (nq : Nat) (s : String) (c : ℚ) (par : Int)
    (hs : s ≠ "") (hlen : s.length = nq) (hc : c ≠ 0) (hp : par < 0) :
    errorCheck nq s c par = some "Negative parameter!" := by
  unfold errorCheck
  rw [if_neg hs, if_neg (fun h => h hlen), if_neg hc, if_pos hp]

theorem errorCheck_msg_ne {nq : Nat} {s : String} {c : ℚ} {par : Int} {m : String}
    (h : errorCheck nq s c par = some m) (hpar : par ≤ llongMax) :
    m ≠ "Parameter out of bound!" := by
  unfold errorCheck at h
  split_ifs at h with h1 h2 h3 h4 h5
  all_goals try (injection h with h'; rw [← h']; decide)
  exfalso
  revert h5 hpar
  simp only [ulongMax, llongMax]
  omega

theorem readLinesAux_error_msg : ∀ {ls : List RawLine} {idx nq : Nat} {e : ParseErr},
    readLinesAux ls idx nq = .error e → e.1 ≠ "Parameter out of bound!" := by
  intro ls
  induction ls with
  | nil =>
    intro idx nq e h
    exact Except.noConfusion h
  | cons l rest ih =>
    intro idx nq e h
    unfold readLinesAux at h
    split at h
    · rename_i hg
      injection h with h'
      rw [← h']
      show "Wrong format!" ≠ "Parameter out of bound!"
      decide
    · rename_i hg
      split at h
      · rename_i msg hec
        injection h with h'
        rw [← h']
        show msg ≠ "Parameter out of bound!"
        exact errorCheck_msg_ne hec (by omega)
      · split at h
        · rename_i e' hrec
          injection h with h'
          rw [← h']
          exact ih hrec
        · exact Except.noConfusion h

theorem parseCircuitSeq_ok_out {lines : List RawLine} {v : Int} {m : Option String}
    {ops : List QuantumOperator} {nq : Nat} {out : String}
    (hr : readLines lines = .ok (ops, nq))
    (hout : parseCircuitSeq lines v m = .ok out) :
    ∃ entries, compileAll (mupOf m) ops = .ok entries ∧
      out = headerOf v nq ++ String.join ((aggregateEntries entries).map Prod.snd) := by
  unfold parseCircuitSeq at hout
  simp only [hr] at hout
  cases hc : compileAll (mupOf m) ops with
  | error e =>
    simp only [hc] at hout
    exact Except.noConfusion hout
  | ok entries =>
    simp only [hc, Except.ok.injEq] at hout
    exact ⟨entries, rfl, hout.symm⟩

/-- C7: for every nonempty valid input, the output starts with the
version-3 register declarations (`qubit`/`bit`) exactly when the requested
version is `3` and with the version-2 declarations (`qreg`/`creg`) for any
other version, both of width `numberQubits` taken from the first record's
basis-string length; and a record whose basis-string length differs from
`numberQubits` (the earlier records being valid) makes loading fail with
the length-mismatch validation error carrying that record's line number. -/
theorem header_version_and_length_mismatch :
    (∀ (l : RawLine) (ls : List RawLine) (v : Int) (m : Option String)
      (ops : List QuantumOperator) (nq : Nat) (out : String),
      readLines (l :: ls) = .ok (ops, nq) →
      parseCircuitSeq (l :: ls) v m = .ok out →
      nq = l.strRep.length ∧
      ∃ rest, out =
        (if v = 3 then
          "OPENQASM 3.0;\ninclude \"stdgates.inc\";\nqubit[" ++ toString nq ++
            "] q;\nbit[" ++ toString nq ++ "] c;\n"
         else
          "OPENQASM 2.0;\ninclude \"qelib1.inc\";\nqreg q[" ++ toString nq ++
            "];\ncreg c[" ++ toString nq ++ "];\n") ++ rest) ∧
    (∀ (pre : List RawLine) (l : RawLine) (rest : List RawLine)
      (ops : List QuantumOperator) (nq : Nat),
      readLines pre = .ok (ops, nq) → pre ≠ [] →
      l.strRep ≠ "" → l.strRep.length ≠ nq →
      ¬(l.checkParam < llongMin ∨ llongMax < l.checkParam) →
      readLines (pre ++ l :: rest) =
        .error ("Non-matching length of string representation!", pre.length + 1)) := by
  constructor
  · intro l ls v m ops nq out hr hout
    obtain ⟨entries, hc, hout'⟩ := parseCircuitSeq_ok_out hr hout
    refine ⟨readLines_nq hr, String.join ((aggregateEntries entries).map Prod.snd), ?_⟩
    rw [hout']
    rfl
  · intro pre l rest ops nq hr hpre hs hlen hg
    have hidx : ¬(1 + pre.length = 1) := by
      have : pre.length ≠ 0 := fun h0 => hpre (List.length_eq_zero.1 h0)
      omega
    have hec : errorCheck (if 1 + pre.length = 1 then l.strRep.length else nq)
        l.strRep l.coef l.checkParam = some "Non-matching length of string representation!" := by
      rw [if_neg hidx]
      exact errorCheck_length nq l.strRep l.coef l.checkParam hs hlen
    have h1 := readLinesAux_cons_error l rest (1 + pre.length) nq _ hg hec
    have h2 := readLinesAux_append_err hr h1
    rw [Nat.add_comm 1 pre.length] at h2
    exact h2

/-- Witness for C7: a valid two-qubit input compiled at version 3, and a
second line whose basis string is shorter than the first line's. -/
theorem header_version_and_length_mismatch_witness :
    ((2 : Nat) = ("XY" : String).length ∧
      ∃ rest,
        "OPENQASM 3.0;\ninclude \"stdgates.inc\";\nqubit[2] q;\nbit[2] c;\n\n// New operator from line 1\nrx(-pi/2) q[1];\nry(pi/2) q[0];\ncx q[0], q[1];\nrz(0.5*1*$[1]) q[1];\ncx q[0], q[1];\nry(-pi/2) q[0];\nrx(pi/2) q[1];\n" =
          (if (3 : Int) = 3 then
            "OPENQASM 3.0;\ninclude \"stdgates.inc\";\nqubit[" ++ toString (2 : Nat) ++
              "] q;\nbit[" ++ toString (2 : Nat) ++ "] c;\n"
           else
            "OPENQASM 2.0;\ninclude \"qelib1.inc\";\nqreg q[" ++ toString (2 : Nat) ++
              "];\ncreg c[" ++ toString (2 : Nat) ++ "];\n") ++ rest) ∧
    readLines ([⟨"XY", 1, "1", 1⟩] ++ (⟨"X", 1, "1", 1⟩ : RawLine) :: []) =
      .error ("Non-matching length of string representation!",
        List.length [(⟨"XY", 1, "1", 1⟩ : RawLine)] + 1) := by
  constructor
  · exact header_version_and_length_mismatch.1 ⟨"XY", 1, "1", 1⟩ [] 3 none
      [⟨1, "XY", [], 1, "1", 1⟩] 2 _ rfl rfl
  · exact header_version_and_length_mismatch.2 [⟨"XY", 1, "1", 1⟩] ⟨"X", 1, "1", 1⟩ []
      [⟨1, "XY", [], 1, "1", 1⟩] 2 rfl (by decide) (by decide) (by decide) (by decide)

/-- C8 (amended): a raw parameter that does not fit into `long long` —
in particular any value exceeding the maximum representable unsigned
index — already fails the stream extraction, so loading fails with the
format error, not the out-of-bound validation error; a negative raw
parameter (on a line whose earlier checks pass) fails with the
negative-parameter validation error; and no input at all can produce the
out-of-bound validation error. -/
theorem parameter_validation_amended :
    (∀ (pre : List RawLine) (l : RawLine) (rest : List RawLine)
      (ops : List QuantumOperator) (nq : Nat),
      readLines pre = .ok (ops, nq) →
      llongMin ≤ l.checkParam → l.checkParam < 0 →
      l.strRep ≠ "" → (pre = [] ∨ l.strRep.length = nq) → l.coef ≠ 0 →
      readLines (pre ++ l :: rest) = .error ("Negative parameter!", pre.length + 1)) ∧
    (∀ (pre : List RawLine) (l : RawLine) (rest : List RawLine)
      (ops : List QuantumOperator) (nq : Nat),
      readLines pre = .ok (ops, nq) →
      (ulongMax : Int) < l.checkParam →
      readLines (pre ++ l :: rest) = .error ("Wrong format!", pre.length + 1)) ∧
    (∀ (lines : List RawLine) (e : ParseErr),
      readLines lines = .error e → e.1 ≠ "Parameter out of bound!") := by
  refine ⟨?_, ?_, ?_⟩
  · intro pre l rest ops nq hr hmin hneg hs hlen hc
    have hg : ¬(l.checkParam < llongMin ∨ llongMax < l.checkParam) := by
      norm_num [llongMin, llongMax] at hmin hneg ⊢
      omega
    have hec : errorCheck (if 1 + pre.length = 1 then l.strRep.length else nq)
        l.strRep l.coef l.checkParam = some "Negative parameter!" := by
      rcases hlen with hpre' | hlen'
      · subst hpre'
        rw [if_pos (by norm_num)]
        exact errorCheck_negative _ _ _ _ hs rfl hc hneg
      · by_cases hidx : 1 + pre.length = 1
        · rw [if_pos hidx]
          exact errorCheck_negative _ _ _ _ hs rfl hc hneg
        · rw [if_neg hidx]
          exact errorCheck_negative _ _ _ _ hs hlen' hc hneg
    have h1 := readLinesAux_cons_error l rest (1 + pre.length) nq _ hg hec
    have h2 := readLinesAux_append_err hr h1
    rw [Nat.add_comm 1 pre.length] at h2
    exact h2
  · intro pre l rest ops nq hr hover
    have hg : l.checkParam < llongMin ∨ llongMax < l.checkParam := by
      right
      norm_num [llongMax, ulongMax] at hover ⊢
      omega
    have h1 := readLinesAux_cons_format l rest (1 + pre.length) nq hg
    have h2 := readLinesAux_append_err hr h1
    rw [Nat.add_comm 1 pre.length] at h2
    exact h2
  · intro lines e h
    exact readLinesAux_error_msg h

/-- Witness for C8 (amended) at a negative parameter, an overflowing
parameter, and a failed load. -/
theorem parameter_validation_amended_witness :
    readLines (([] : List RawLine) ++ (⟨"X", 1, "1", -3⟩ : RawLine) :: []) =
      .error ("Negative parameter!", List.length ([] : List RawLine) + 1) ∧
    readLines ([⟨"X", 1, "1", 1⟩] ++ (⟨"X", 1, "1", (2 : Int) ^ 65⟩ : RawLine) :: []) =
      .error ("Wrong format!", List.length [(⟨"X", 1, "1", 1⟩ : RawLine)] + 1) ∧
    (("Negative parameter!", 1) : ParseErr).1 ≠ "Parameter out of bound!" := by
  refine ⟨?_, ?_, ?_⟩
  · exact parameter_validation_amended.1 [] ⟨"X", 1, "1", -3⟩ [] [] 0 rfl
      (by norm_num [llongMin]) (by norm_num) (by decide) (Or.inl rfl) (by norm_num)
  · exact parameter_validation_amended.2.1 [⟨"X", 1, "1", 1⟩] ⟨"X", 1, "1", (2 : Int) ^ 65⟩ []
      [⟨1, "X", [], 1, "1", 1⟩] 1 rfl (by norm_num [ulongMax])
  · have h : readLines [⟨"X", 1, "1", -3⟩] = .error ("Negative parameter!", 1) := rfl
    exact parameter_validation_amended.2.2 [⟨"X", 1, "1", -3⟩] ("Negative parameter!", 1) h

/-- Counterexample for C8 as stated: a raw parameter exceeding the maximum
representable unsigned index makes loading fail with the format error
(failed `long long` extraction), not with the out-of-bound validation
error the claim names. -/
theorem parameter_overflow_cex :
    readLines [⟨"X", 1, "1", (2 : Int) ^ 64⟩] = .error ("Wrong format!", 1) ∧
    (ulongMax : Int) < (2 : Int) ^ 64 ∧
    ("Wrong format!" ≠ "Parameter out of bound!") := by
  refine ⟨rfl, by norm_num [ulongMax], by decide⟩

/-! ### Aggregation through the `qasmOperators` map -/

theorem mapInsert_big {m : List (Nat × String)} {k : Nat} {v : String}
    (h : ∀ e ∈ m, e.1 < k) : mapInsert m k v = m ++ [(k, v)] := by
  induction m with
  | nil => rfl
  | cons hd tl ih =>
    obtain ⟨k', v'⟩ := hd
    have hhd := h (k', v') (List.mem_cons_self _ tl)
    unfold mapInsert
    rw [if_neg (by omega), if_neg (by omega),
      ih fun e he => h e (List.mem_cons_of_mem _ he)]
    rfl

theorem foldl_mapInsert_sorted : ∀ (entries acc : List (Nat × String)),
    List.Pairwise (fun a b => a.1 < b.1) (acc ++ entries) →
    entries.foldl (fun m e => mapInsert m e.1 e.2) acc = acc ++ entries := by
  intro entries
  induction entries with
  | nil =>
    intro acc _
    simp
  | cons e es ih =>
    intro acc hp
    have hlt : ∀ a ∈ acc, a.1 < e.1 := fun a ha =>
      (List.pairwise_append.1 hp).2.2 a ha e (List.mem_cons_self e es)
    have hstep : mapInsert acc e.1 e.2 = acc ++ [e] := by
      simpa using mapInsert_big hlt
    have hp' : List.Pairwise (fun a b : Nat × String => a.1 < b.1) ((acc ++ [e]) ++ es) := by
      rw [List.append_assoc]
      simpa using hp
    simp only [List.foldl_cons, hstep]
    rw [ih (acc ++ [e]) hp', List.append_assoc]
    rfl

theorem aggregateEntries_sorted (entries : List (Nat × String))
    (h : List.Pairwise (fun a b => a.1 < b.1) entries) :
    aggregateEntries entries = entries := by
  have := foldl_mapInsert_sorted entries [] (by simpa)
  simpa [aggregateEntries] using this

theorem mapInsert_comm : ∀ (m : List (Nat × String)) (k₁ k₂ : Nat) (v₁ v₂ : String),
    k₁ ≠ k₂ →
    mapInsert (mapInsert m k₁ v₁) k₂ v₂ = mapInsert (mapInsert m k₂ v₂) k₁ v₁ := by
  intro m
  induction m with
  | nil =>
    intro k₁ k₂ v₁ v₂ hne
    simp only [mapInsert]
    split_ifs <;> first | rfl | omega
  | cons hd tl ih =>
    intro k₁ k₂ v₁ v₂ hne
    obtain ⟨k', v'⟩ := hd
    simp only [mapInsert]
    split_ifs <;> simp only [mapInsert] <;> split_ifs <;>
      first
        | rfl
        | omega
        | exact congrArg _ (ih k₁ k₂ v₁ v₂ hne)

theorem aggregateEntries_perm (l₁ l₂ : List (Nat × String)) (hp : l₁.Perm l₂)
    (hnd : (l₁.map Prod.fst).Nodup) :
    aggregateEntries l₁ = aggregateEntries l₂ := by
  unfold aggregateEntries
  refine hp.foldl_eq' ?_ []
  intro x hx y hy zm
  by_cases hxy : x = y
  · rw [hxy]
  · have hk : x.1 ≠ y.1 := fun h => hxy (List.inj_on_of_nodup_map hnd hx hy h)
    exact mapInsert_comm zm x.1 y.1 x.2 y.2 hk

/-! ### Pipeline characterization -/

theorem compileOp_fst {mup : String} {op : QuantumOperator} {r : Nat × String}
    (h : compileOp mup op = .ok r) : r.1 = op.index := by
  unfold compileOp at h
  split at h
  · exact Except.noConfusion h
  · split at h
    · exact Except.noConfusion h
    · injection h with h'
      rw [← h']

theorem compileAll_map_fst : ∀ {mup : String} {ops : List QuantumOperator}
    {entries : List (Nat × String)}, compileAll mup ops = .ok entries →
    entries.map Prod.fst = ops.map (·.index) := by
  intro mup ops
  induction ops with
  | nil =>
    intro entries h
    simp only [compileAll, Except.ok.injEq] at h
    rw [← h]
    rfl
  | cons op rest ih =>
    intro entries h
    unfold compileAll at h
    split at h
    · exact Except.noConfusion h
    · rename_i r hro
      split at h
      · exact Except.noConfusion h
      · rename_i rs hrs
        injection h with h'
        rw [← h']
        simp only [List.map_cons]
        rw [compileOp_fst hro, ih hrs]

theorem pipeline_spec {lines : List RawLine} {v : Int} {m : Option String}
    {ops : List QuantumOperator} {nq : Nat} {entries : List (Nat × String)}
    (hr : readLines lines = .ok (ops, nq))
    (hc : compileAll (mupOf m) ops = .ok entries) :
    aggregateEntries entries = entries ∧
    parseCircuitSeq lines v m = .ok (headerOf v nq ++ String.join (entries.map Prod.snd)) ∧
    (∀ b, parseCircuit lines b v m =
      .ok (headerOf v nq ++ String.join (entries.map Prod.snd) ++
        String.join (entries.map Prod.snd))) := by
  have hkeys : entries.map Prod.fst = List.range' 1 lines.length := by
    rw [compileAll_map_fst hc, readLinesAux_ok_ops hr, buildOps_map_index]
  have hsorted : List.Pairwise (fun a b : Nat × String => a.1 < b.1) entries := by
    have hpw : List.Pairwise (· < ·) (entries.map Prod.fst) := by
      rw [hkeys]
      exact List.pairwise_lt_range' 1 lines.length
    exact List.pairwise_map.1 hpw
  have hagg : aggregateEntries entries = entries := aggregateEntries_sorted entries hsorted
  refine ⟨hagg, ?_, ?_⟩
  · unfold parseCircuitSeq
    simp only [hr, hc, hagg]
  · intro b
    unfold parseCircuit
    simp only [hr, ite_self, hc, hagg]

/-- C1 (amended): for every valid input sequence, `parseCircuitSeq` returns
the version-specific header followed by exactly one comment-delimited block
per input record, in ascending `sequenceIndex` order (the record indices
are `1, 2, …` in input order and the aggregation keys coincide with them),
with no block repeated or omitted; `parseCircuit` (either backend) returns
the header followed by that block sequence concatenated twice. -/
theorem output_blocks_amended (lines : List RawLine) (v : Int) (m : Option String)
    (ops : List QuantumOperator) (nq : Nat) (entries : List (Nat × String))
    (hr : readLines lines = .ok (ops, nq))
    (hc : compileAll (mupOf m) ops = .ok entries) :
    ops.length = lines.length ∧
    ops.map (·.index) = List.range' 1 lines.length ∧
    entries.map Prod.fst = ops.map (·.index) ∧
    parseCircuitSeq lines v m = .ok (headerOf v nq ++ String.join (entries.map Prod.snd)) ∧
    (∀ b, parseCircuit lines b v m =
      .ok (headerOf v nq ++ String.join (entries.map Prod.snd) ++
        String.join (entries.map Prod.snd))) := by
  obtain ⟨-, hseq, hpar⟩ := pipeline_spec hr hc
  refine ⟨?_, ?_, compileAll_map_fst hc, hseq, hpar⟩
  · rw [readLinesAux_ok_ops hr, buildOps_length]
  · rw [readLinesAux_ok_ops hr, buildOps_map_index]

/-- Witness for C1 (amended) at the single-record input `"X 1 1"`. -/
theorem output_blocks_amended_witness :
    (readLines [⟨"X", 1, "1", 1⟩] = .ok ([⟨1, "X", [], 1, "1", 1⟩], 1)) ∧
    (compileAll (mupOf none) [⟨1, "X", [], 1, "1", 1⟩] =
      .ok [(1, "\n// New operator from line 1\nry(pi/2) q[0];\nrz(0.5*1*$[1]) q[0];\nry(-pi/2) q[0];\n")]) ∧
    (([⟨1, "X", [], 1, "1", 1⟩] : List QuantumOperator).length =
        ([⟨"X", 1, "1", 1⟩] : List RawLine).length ∧
      ([⟨1, "X", [], 1, "1", 1⟩] : List QuantumOperator).map (·.index) =
        List.range' 1 ([⟨"X", 1, "1", 1⟩] : List RawLine).length ∧
      ([(1, "\n// New operator from line 1\nry(pi/2) q[0];\nrz(0.5*1*$[1]) q[0];\nry(-pi/2) q[0];\n")] :
          List (Nat × String)).map Prod.fst =
        ([⟨1, "X", [], 1, "1", 1⟩] : List QuantumOperator).map (·.index) ∧
      parseCircuitSeq [⟨"X", 1, "1", 1⟩] 2 none =
        .ok (headerOf 2 1 ++ String.join
          (([(1, "\n// New operator from line 1\nry(pi/2) q[0];\nrz(0.5*1*$[1]) q[0];\nry(-pi/2) q[0];\n")] :
            List (Nat × String)).map Prod.snd)) ∧
      (∀ b, parseCircuit [⟨"X", 1, "1", 1⟩] b 2 none =
        .ok (headerOf 2 1 ++ String.join
          (([(1, "\n// New operator from line 1\nry(pi/2) q[0];\nrz(0.5*1*$[1]) q[0];\nry(-pi/2) q[0];\n")] :
            List (Nat × String)).map Prod.snd) ++ String.join
          (([(1, "\n// New operator from line 1\nry(pi/2) q[0];\nrz(0.5*1*$[1]) q[0];\nry(-pi/2) q[0];\n")] :
            List (Nat × String)).map Prod.snd)))) := by
  have hr : readLines [⟨"X", 1, "1", 1⟩] = .ok ([⟨1, "X", [], 1, "1", 1⟩], 1) := rfl
  have hc : compileAll (mupOf none) [⟨1, "X", [], 1, "1", 1⟩] =
      .ok [(1, "\n// New operator from line 1\nry(pi/2) q[0];\nrz(0.5*1*$[1]) q[0];\nry(-pi/2) q[0];\n")] := rfl
  exact ⟨hr, hc, output_blocks_amended [⟨"X", 1, "1", 1⟩] 2 none _ 1 _ hr hc⟩

/-- Counterexample for C1 as stated: `parseCircuit` does not return one
block per record — the in-memory return path concatenates the block
sequence a second time, so each block appears twice. -/
theorem parseCircuit_duplicates_blocks_cex :
    parseCircuit [⟨"X", 1, "1", 1⟩] false 2 none =
      .ok ("OPENQASM 2.0;\ninclude \"qelib1.inc\";\nqreg q[1];\ncreg c[1];\n" ++
        "\n// New operator from line 1\nry(pi/2) q[0];\nrz(0.5*1*$[1]) q[0];\nry(-pi/2) q[0];\n" ++
        "\n// New operator from line 1\nry(pi/2) q[0];\nrz(0.5*1*$[1]) q[0];\nry(-pi/2) q[0];\n") ∧
    ("OPENQASM 2.0;\ninclude \"qelib1.inc\";\nqreg q[1];\ncreg c[1];\n" ++
        "\n// New operator from line 1\nry(pi/2) q[0];\nrz(0.5*1*$[1]) q[0];\nry(-pi/2) q[0];\n" ++
        "\n// New operator from line 1\nry(pi/2) q[0];\nrz(0.5*1*$[1]) q[0];\nry(-pi/2) q[0];\n") ≠
      ("OPENQASM 2.0;\ninclude \"qelib1.inc\";\nqreg q[1];\ncreg c[1];\n" ++
        "\n// New operator from line 1\nry(pi/2) q[0];\nrz(0.5*1*$[1]) q[0];\nry(-pi/2) q[0];\n") := by
  exact ⟨rfl, by decide⟩

/-- C6: the aggregation of the per-operator results into the
`qasmOperators` map yields the same map for any two completion orders of
the workers (permutations of the same result set, the keys being the
distinct `sequenceIndex` values), and compiling the same input sequence
twice with the same version and multiplier yields byte-identical output. -/
theorem aggregation_schedule_independent (lines : List RawLine) (v : Int)
    (m : Option String) (l₁ l₂ : List (Nat × String)) (hperm : l₁.Perm l₂)
    (hnd : (l₁.map Prod.fst).Nodup) :
    aggregateEntries l₁ = aggregateEntries l₂ ∧
    parseCircuitSeq lines v m = parseCircuitSeq lines v m :=
  ⟨aggregateEntries_perm l₁ l₂ hperm hnd, rfl⟩

/-- Witness for C6 at two completion orders of the same two results. -/
theorem aggregation_schedule_independent_witness :
    ([(1, "a"), (2, "b")] : List (Nat × String)).Perm [(2, "b"), (1, "a")] ∧
    (([(1, "a"), (2, "b")] : List (Nat × String)).map Prod.fst).Nodup ∧
    (aggregateEntries [(1, "a"), (2, "b")] = aggregateEntries [(2, "b"), (1, "a")] ∧
      parseCircuitSeq [⟨"X", 1, "1", 1⟩] 2 none = parseCircuitSeq [⟨"X", 1, "1", 1⟩] 2 none) := by
  refine ⟨by decide, by decide, ?_⟩
  exact aggregation_schedule_independent [⟨"X", 1, "1", 1⟩] 2 none
    [(1, "a"), (2, "b")] [(2, "b"), (1, "a")] (by decide) (by decide)

/-- C9 (amended): `parseCircuit` returns the same string for both values of
`useOpenMP`, and on every successfully compiled input it returns
`parseCircuitSeq`'s output with the block sequence appended a second time;
the two entry points therefore differ exactly by that duplicated block
sequence. -/
theorem parseCircuit_relation_amended (lines : List RawLine) (v : Int)
    (m : Option String) (b₁ b₂ : Bool) :
    parseCircuit lines b₁ v m = parseCircuit lines b₂ v m ∧
    (∀ (ops : List QuantumOperator) (nq : Nat) (entries : List (Nat × String)),
      readLines lines = .ok (ops, nq) →
      compileAll (mupOf m) ops = .ok entries →
      parseCircuitSeq lines v m = .ok (headerOf v nq ++ String.join (entries.map Prod.snd)) ∧
      parseCircuit lines b₁ v m =
        .ok (headerOf v nq ++ String.join (entries.map Prod.snd) ++
          String.join (entries.map Prod.snd))) := by
  constructor
  · simp only [parseCircuit, ite_self]
  · intro ops nq entries hr hc
    obtain ⟨-, hseq, hpar⟩ := pipeline_spec hr hc
    exact ⟨hseq, hpar b₁⟩

/-- Witness for C9 (amended) at the single-record input `"X 1 1"`. -/
theorem parseCircuit_relation_amended_witness :
    (parseCircuit [⟨"X", 1, "1", 1⟩] true 2 none =
      parseCircuit [⟨"X", 1, "1", 1⟩] false 2 none) ∧
    (parseCircuitSeq [⟨"X", 1, "1", 1⟩] 2 none =
      .ok (headerOf 2 1 ++ String.join
        (([(1, "\n// New operator from line 1\nry(pi/2) q[0];\nrz(0.5*1*$[1]) q[0];\nry(-pi/2) q[0];\n")] :
          List (Nat × String)).map Prod.snd)) ∧
      parseCircuit [⟨"X", 1, "1", 1⟩] true 2 none =
        .ok (headerOf 2 1 ++ String.join
          (([(1, "\n// New operator from line 1\nry(pi/2) q[0];\nrz(0.5*1*$[1]) q[0];\nry(-pi/2) q[0];\n")] :
            List (Nat × String)).map Prod.snd) ++ String.join
          (([(1, "\n// New operator from line 1\nry(pi/2) q[0];\nrz(0.5*1*$[1]) q[0];\nry(-pi/2) q[0];\n")] :
            List (Nat × String)).map Prod.snd))) := by
  have h := parseCircuit_relation_amended [⟨"X", 1, "1", 1⟩] 2 none true false
  have hr : readLines [⟨"X", 1, "1", 1⟩] = .ok ([⟨1, "X", [], 1, "1", 1⟩], 1) := rfl
  have hc : compileAll (mupOf none) [⟨1, "X", [], 1, "1", 1⟩] =
      .ok [(1, "\n// New operator from line 1\nry(pi/2) q[0];\nrz(0.5*1*$[1]) q[0];\nry(-pi/2) q[0];\n")] := rfl
  exact ⟨h.1, h.2 _ 1 _ hr hc⟩

/-- Counterexample for C9 as stated: on a concrete input the two entry
points return different strings (the overloaded `parseCircuit` emits every
block twice). -/
theorem seq_vs_parseCircuit_cex :
    parseCircuitSeq [⟨"Z", 2, "2", 3⟩] 2 none ≠
      parseCircuit [⟨"Z", 2, "2", 3⟩] false 2 none := by
  intro h
  have h₁ : parseCircuitSeq [⟨"Z", 2, "2", 3⟩] 2 none =
      .ok ("OPENQASM 2.0;\ninclude \"qelib1.inc\";\nqreg q[1];\ncreg c[1];\n" ++
        "\n// New operator from line 1\nrz(0.5*2*$[3]) q[0];\n") := rfl
  have h₂ : parseCircuit [⟨"Z", 2, "2", 3⟩] false 2 none =
      .ok ("OPENQASM 2.0;\ninclude \"qelib1.inc\";\nqreg q[1];\ncreg c[1];\n" ++
        "\n// New operator from line 1\nrz(0.5*2*$[3]) q[0];\n" ++
        "\n// New operator from line 1\nrz(0.5*2*$[3]) q[0];\n") := rfl
  rw [h₁, h₂] at h
  exact absurd (Except.ok.inj h) (by decide)

theorem filter_isRz_termLayersI (x y z : List Nat) (p : Nat) :
    ∀ ba ∈ termLayersI x y z p, ba.1.filter isRz = [] ∧ ba.2.filter isRz = [] := by
  intro ba hba
  unfold termLayersI at hba
  rcases List.mem_append.1 hba with h' | hz'
  · rcases List.mem_append.1 h' with hx' | hy'
    · obtain ⟨i, -, rfl⟩ := List.mem_map.1 hx'
      exact ⟨rfl, rfl⟩
    · obtain ⟨i, -, rfl⟩ := List.mem_map.1 hy'
      exact ⟨rfl, rfl⟩
  · obtain ⟨i, -, rfl⟩ := List.mem_map.1 hz'
    exact ⟨rfl, rfl⟩

theorem filter_isRz_termInstrs (mup : String) (qop : QuantumOperator) (x y z : List Nat)
    (p : Nat) :
    (termInstrs mup qop x y z p).filter isRz =
      [Instr.rz (angleText mup qop.coefStr qop.param) p] := by
  unfold termInstrs
  have hb : (pivotBeforeI x y p).filter isRz = [] := by
    unfold pivotBeforeI
    split_ifs <;> rfl
  have ha : (pivotAfterI x y p).filter isRz = [] := by
    unfold pivotAfterI
    split_ifs <;> rfl
  rw [List.filter_cons, List.filter_append, List.filter_append,
    filter_wrapLayersI isRz _ _ (filter_isRz_termLayersI x y z p), hb, ha]
  rfl

/-- C5: for every term, the emitted block is the rendering of an
instruction sequence whose only parameterized Z-rotation is the central one
on the pivot, with angle text `<multiplier><coefficient>*$[<groupParameter>]`;
the loader sets `groupParameter` to the record's line number exactly when
the raw parameter was `0` and keeps the raw parameter otherwise, so two
records with equal nonzero raw parameters carry an identical `$[...]` token
in their emitted angle texts. -/
theorem central_rz_and_parameter_tokens (mup : String) (qop : QuantumOperator)
    (x y z : List Nat) (p : Nat)
    (hok : parseStrInt qop.strRep = .ok qop.intOp) (hop : qop.intOp = [x, y, z])
    (hp : p = lastUsed qop.intOp) :
    parseOpToQasm mup qop = some (renderAll (termInstrs mup qop x y z p)) ∧
    (termInstrs mup qop x y z p).filter isRz =
      [Instr.rz (angleText mup qop.coefStr qop.param) p] ∧
    angleText mup qop.coefStr qop.param =
      mup ++ qop.coefStr ++ "*$[" ++ toString qop.param ++ "]" ∧
    (∀ (lines : List RawLine) (ops : List QuantumOperator) (nq : Nat),
      readLines lines = .ok (ops, nq) →
      ∀ k (hk : k < ops.length) (hk' : k < lines.length),
        (ops.get ⟨k, hk⟩).param =
          if (lines.get ⟨k, hk'⟩).checkParam = 0 then k + 1
          else (lines.get ⟨k, hk'⟩).checkParam.toNat) ∧
    (∀ q₁ q₂ : QuantumOperator, q₁.param = q₂.param →
      "$[" ++ toString q₁.param ++ "]" = "$[" ++ toString q₂.param ++ "]") := by
  obtain ⟨hxy, hxz, hyz⟩ := components_disjoint hok hop
  refine ⟨?_, filter_isRz_termInstrs mup qop x y z p, rfl, ?_, ?_⟩
  · rw [parseOpToQasm_structure mup qop x y z p hop hp hxy hxz hyz, renderAll_termInstrs]
  · intro lines ops nq hr k hk hk'
    have hops : ops = buildOps lines 1 := readLinesAux_ok_ops hr
    subst hops
    rw [buildOps_get lines 1 k hk hk']
    simp [mkOp, Nat.add_comm]
  · intro q₁ q₂ hq
    rw [hq]

/-- Witness for C5 at the term `"XZY"` and a two-record input whose raw
parameters are `0` (normalized to the line number) and `7` (kept). -/
theorem central_rz_and_parameter_tokens_witness :
    (parseStrInt "XZY" = .ok [[1], [3], [2]]) ∧
    (parseOpToQasm "0.5*" ⟨2, "XZY", [[1], [3], [2]], 1, "1", 7⟩ =
        some (renderAll (termInstrs "0.5*" ⟨2, "XZY", [[1], [3], [2]], 1, "1", 7⟩
          [1] [3] [2] 3)) ∧
      (termInstrs "0.5*" ⟨2, "XZY", [[1], [3], [2]], 1, "1", 7⟩ [1] [3] [2] 3).filter isRz =
        [Instr.rz (angleText "0.5*" "1" 7) 3] ∧
      angleText "0.5*" "1" 7 = "0.5*" ++ "1" ++ "*$[" ++ toString (7 : Nat) ++ "]" ∧
      (∀ (lines : List RawLine) (ops : List QuantumOperator) (nq : Nat),
        readLines lines = .ok (ops, nq) →
        ∀ k (hk : k < ops.length) (hk' : k < lines.length),
          (ops.get ⟨k, hk⟩).param =
            if (lines.get ⟨k, hk'⟩).checkParam = 0 then k + 1
            else (lines.get ⟨k, hk'⟩).checkParam.toNat) ∧
      (∀ q₁ q₂ : QuantumOperator, q₁.param = q₂.param →
        "$[" ++ toString q₁.param ++ "]" = "$[" ++ toString q₂.param ++ "]")) ∧
    (readLines [⟨"XZ", 1, "1", 0⟩, ⟨"ZY", 1, "1", 7⟩] =
      .ok ([⟨1, "XZ", [], 1, "1", 1⟩, ⟨2, "ZY", [], 1, "1", 7⟩], 2)) := by
  refine ⟨rfl, ?_, rfl⟩
  exact central_rz_and_parameter_tokens "0.5*" ⟨2, "XZY", [[1], [3], [2]], 1, "1", 7⟩
    [1] [3] [2] 3 rfl rfl rfl

/-- C3 (code bug): a term whose basis string is all `I` characters is not
rejected — `parseStrInt` succeeds with three empty index lists, `lastUsed`
is `0`, and the unsigned `lastUsed - 1` wraps around, so the compiled
output addresses qubit `18446744073709551615`; the claim (and §9 of the
specification) requires a `DecodeError` instead. -/
theorem allIdentity_term_compiles_with_wrapped_index :
    parseStrInt "II" = .ok [[], [], []] ∧
    ulSub1 (lastUsed [[], [], []]) = 18446744073709551615 ∧
    parseCircuitSeq [⟨"II", 1, "1", 1⟩] 2 none =
      .ok ("OPENQASM 2.0;\ninclude \"qelib1.inc\";\nqreg q[2];\ncreg c[2];\n" ++
        "\n// New operator from line 1\nrz(0.5*1*$[1]) q[18446744073709551615];\n") := by
  refine ⟨rfl, by decide, rfl⟩

end QasmParser
